import Mathlib

/-!
# Verification of the shift-table parser (`shift_pdf_to_gcal.py`)

Shallow embedding of the text normalizer and shift-table parser of
`src/shift_pdf_to_gcal.py`, together with proofs of the specified
properties.  Strings are modelled by Lean `String` (a wrapper around
`List Char`); Python's whitespace class `\s` and the digit class `\d`
are modelled on character code points, `\d` as the full set of Unicode
decimal digits (category Nd) that Python's `re` matches on `str`
patterns.  All functions are total and executable; the Python code
raises no exception on any of the modelled paths, which corresponds to
totality of the embedding.
-/

namespace ShiftToGcal

/-- Python's whitespace class (`\s` in `re`, `str.isspace`,
for the code points that can occur in decoded text):
`\t \n \v \f \r`, space, the file/group/record/unit separators,
NEL, NBSP, Ogham space, the U+2000–U+200A spaces, LS, PS, NNBSP,
MMSP and the ideographic space U+3000. -/
def isWs (c : Char) : Bool :=
  (9 ≤ c.toNat && c.toNat ≤ 13) || c.toNat == 32 ||
  (28 ≤ c.toNat && c.toNat ≤ 31) || c.toNat == 0x85 || c.toNat == 0xa0 ||
  c.toNat == 0x1680 || (0x2000 ≤ c.toNat && c.toNat ≤ 0x200a) ||
  c.toNat == 0x2028 || c.toNat == 0x2029 || c.toNat == 0x202f ||
  c.toNat == 0x205f || c.toNat == 0x3000

/-- The fixed full-width → half-width translation table `_Z2H_TABLE`
of the source, as a character function (`str.translate` applies it
pointwise; characters outside the table are unchanged). -/
def z2h (c : Char) : Char :=
  if c = '０' then '0' else if c = '１' then '1' else
  if c = '２' then '2' else if c = '３' then '3' else
  if c = '４' then '4' else if c = '５' then '5' else
  if c = '６' then '6' else if c = '７' then '7' else
  if c = '８' then '8' else if c = '９' then '9' else
  if c = '：' then ':' else
  if c = '－' then '-' else if c = 'ー' then '-' else
  if c = '〜' then '~' else if c = '～' then '~' else
  if c = '　' then ' ' else c

/-- `re.sub(r"\s+", " ", s)`: replace every maximal run of whitespace
characters by a single ASCII space. -/
def collapseWs : List Char → List Char
  | [] => []
  | [c] => if isWs c then [' '] else [c]
  | c1 :: c2 :: cs =>
    if isWs c1 then
      if isWs c2 then collapseWs (c2 :: cs)
      else ' ' :: collapseWs (c2 :: cs)
    else c1 :: collapseWs (c2 :: cs)

/-- `str.strip()`: remove leading and trailing whitespace. -/
def stripWs (l : List Char) : List Char :=
  List.rdropWhile isWs (List.dropWhile isWs l)

/-- `normalize(s)` of the source: translate through `_Z2H_TABLE`,
collapse whitespace runs to single spaces, strip. -/
def normalize (s : String) : String :=
  ⟨stripWs (collapseWs (s.data.map z2h))⟩

/-- Python line-boundary characters recognized by `str.splitlines`
(besides the `"\r\n"` pair, handled separately). -/
def isLineBreak (c : Char) : Bool :=
  c.toNat == 10 || c.toNat == 13 || c.toNat == 11 || c.toNat == 12 ||
  c.toNat == 28 || c.toNat == 29 || c.toNat == 30 || c.toNat == 0x85 ||
  c.toNat == 0x2028 || c.toNat == 0x2029

/-- Worker for `splitLines` (accumulator holds the current line,
reversed). -/
def splitLinesAux : List Char → List Char → List String
  | [], acc => if acc.isEmpty then [] else [⟨acc.reverse⟩]
  | '\r' :: '\n' :: cs, acc => ⟨acc.reverse⟩ :: splitLinesAux cs []
  | c :: cs, acc =>
    if isLineBreak c then ⟨acc.reverse⟩ :: splitLinesAux cs []
    else splitLinesAux cs (c :: acc)

/-- `str.splitlines()`: split on line boundaries, no trailing empty
line for a trailing terminator. -/
def splitLines (s : String) : List String :=
  splitLinesAux s.data []

/-- Worker for `splitWs` (accumulator holds the current token,
reversed). -/
def splitWsAux : List Char → List Char → List String
  | [], acc => if acc.isEmpty then [] else [⟨acc.reverse⟩]
  | c :: cs, acc =>
    if isWs c then
      if acc.isEmpty then splitWsAux cs []
      else ⟨acc.reverse⟩ :: splitWsAux cs []
    else splitWsAux cs (c :: acc)

/-- `str.split()` with no argument: split on whitespace runs,
discarding empty tokens. -/
def splitWs (s : String) : List String :=
  splitWsAux s.data []

/-- Worker for `splitOnSpace`: split at every single space character,
keeping empty components (this materializes the single-space token
separation demanded by the day-header regular expression). -/
def splitOnSpaceAux : List Char → List Char → List String
  | [], acc => [⟨acc.reverse⟩]
  | c :: cs, acc =>
    if c = ' ' then ⟨acc.reverse⟩ :: splitOnSpaceAux cs []
    else splitOnSpaceAux cs (c :: acc)

/-- Split at every space character (components may be empty). -/
def splitOnSpace (l : List Char) : List String :=
  splitOnSpaceAux l []

/-- The base code points of the runs of ten consecutive Unicode decimal
digits (general category Nd, Unicode 14.0 as shipped with Python 3.11):
each Nd character sits in exactly one run `[b, b+9]` and carries the
decimal value `toNat - b`.  ASCII `0x30` comes first. -/
def ndBases : List Nat := [
  0x30, 0x660, 0x6f0, 0x7c0, 0x966, 0x9e6,
  0xa66, 0xae6, 0xb66, 0xbe6, 0xc66, 0xce6,
  0xd66, 0xde6, 0xe50, 0xed0, 0xf20, 0x1040,
  0x1090, 0x17e0, 0x1810, 0x1946, 0x19d0, 0x1a80,
  0x1a90, 0x1b50, 0x1bb0, 0x1c40, 0x1c50, 0xa620,
  0xa8d0, 0xa900, 0xa9d0, 0xa9f0, 0xaa50, 0xabf0,
  0xff10, 0x104a0, 0x10d30, 0x11066, 0x110f0, 0x11136,
  0x111d0, 0x112f0, 0x11450, 0x114d0, 0x11650, 0x116c0,
  0x11730, 0x118e0, 0x11950, 0x11c50, 0x11d50, 0x11da0,
  0x16a60, 0x16ac0, 0x16b50, 0x1d7ce, 0x1d7d8, 0x1d7e2,
  0x1d7ec, 0x1d7f6, 0x1e140, 0x1e2f0, 0x1e950, 0x1fbf0]

/-- `\d` of Python `re` on `str` patterns: any Unicode decimal digit
(category Nd) — the character lies in one of the runs of `ndBases`. -/
def isDigitCh (c : Char) : Bool :=
  ndBases.any (fun b => b ≤ c.toNat && c.toNat ≤ b + 9)

/-- Look up the decimal value of a code point in the run table. -/
def digitValAux : List Nat → Nat → Nat
  | [], _ => 0
  | b :: bs, n => if b ≤ n && n ≤ b + 9 then n - b else digitValAux bs n

/-- The decimal value `int()` assigns to a Unicode decimal digit
(`unicodedata.decimal`): its offset inside its run of ten; `0` for a
non-digit (never reached on the parser's inputs). -/
def digitVal (c : Char) : Nat :=
  digitValAux ndBases c.toNat

/-- One token of the day-header alternation
`[1-9]|[12]\d|3[01]`: a day number 1–31 with no leading zero. -/
def isDayTok (t : String) : Bool :=
  match t.data with
  | [c] => 49 ≤ c.toNat && c.toNat ≤ 57
  | [c1, c2] =>
    ((c1.toNat == 49 || c1.toNat == 50) && isDigitCh c2) ||
    (c1.toNat == 51 && (c2.toNat == 48 || c2.toNat == 49))
  | _ => false

/-- `re.fullmatch(r"(?:[1-9]|[12]\d|3[01])( (?:[1-9]|[12]\d|3[01]))+", line)`:
the whole line is two or more day tokens separated by single spaces.
(Each alternative of the day alternation is space-free and non-empty,
so the full match decomposes exactly at the space characters; the
outer `+` forces at least one ` token` repetition, hence at least two
tokens.) -/
def isDayHeader (s : String) : Bool :=
  2 ≤ (splitOnSpace s.data).length && (splitOnSpace s.data).all isDayTok

/-- `int(tok)` for a token of Unicode decimal digits. -/
def parseNat (s : String) : Nat :=
  s.data.foldl (fun a c => a * 10 + digitVal c) 0

/-- The colon class `[:：]` of the time regular expression. -/
def isColonCh (c : Char) : Bool :=
  c.toNat == 58 || c.toNat == 0xff1a

/-- The separator class `[~〜\-ー－]` of the time regular expression. -/
def isSepCh (c : Char) : Bool :=
  c.toNat == 126 || c.toNat == 0x301c || c.toNat == 45 ||
  c.toNat == 0x30fc || c.toNat == 0xff0d

/-- Match the group `(\d{1,2}[:：]\d{2})` at the head of a character
list, returning the matched characters and the remainder.  The greedy
two-digit hour is attempted first; one-digit backtracking can only
succeed when the second character is a colon (a digit is never a
colon), so the match is deterministic. -/
def matchHM : List Char → Option (List Char × List Char)
  | c1 :: c2 :: rest =>
    if isDigitCh c1 then
      if isDigitCh c2 then
        match rest with
        | c3 :: c4 :: c5 :: rest2 =>
          if isColonCh c3 && isDigitCh c4 && isDigitCh c5 then
            some ([c1, c2, c3, c4, c5], rest2)
          else none
        | _ => none
      else if isColonCh c2 then
        match rest with
        | c3 :: c4 :: rest2 =>
          if isDigitCh c3 && isDigitCh c4 then some ([c1, c2, c3, c4], rest2)
          else none
        | _ => none
      else none
    else none
  | _ => none

/-- `.replace("：", ":")` applied to a matched group (the group is a
character run, so the replacement acts pointwise). -/
def colonFix (c : Char) : Char :=
  if c.toNat == 0xff1a then ':' else c

/-- `re.match(r"(\d{1,2}[:：]\d{2})[~〜\-ー－](\d{1,2}[:：]\d{2})", tok)`
together with the `replace("：", ":")` on each group: an anchored
prefix match, trailing characters after the second group are ignored. -/
def matchTimeRange (s : String) : Option (String × String) :=
  match matchHM s.data with
  | some (g1, rest) =>
    match rest with
    | sep :: rest2 =>
      if isSepCh sep then
        match matchHM rest2 with
        | some (g2, _) => some (⟨g1.map colonFix⟩, ⟨g2.map colonFix⟩)
        | none => none
      else none
    | [] => none
  | none => none

/-- The per-block column loop (`for idx in range(n)` with
`n = min(len(days), len(names), len(times))`): the `zip` truncates the
three rows to the length of the shortest one, exactly like `range(n)`;
a column contributes a record iff its name equals the target and its
time token matches the time-range pattern. -/
def colRecords (days : List Nat) (names times : List String)
    (target : String) : List (Nat × String × String) :=
  (days.zip (names.zip times)).filterMap (fun c =>
    if c.2.1 = target then
      match matchTimeRange c.2.2 with
      | some (se) => some (c.1, se.1, se.2)
      | none => none
    else none)

/-- Records extracted from one recognized 3-line block
(`days = [int(x) for x in lines[i].split()]`,
`names = lines[i+1].split()`, `times = lines[i+2].split()`). -/
def blockRecords (l0 l1 l2 target : String) : List (Nat × String × String) :=
  colRecords ((splitWs l0).map parseNat) (splitWs l1) (splitWs l2) target

/-- The cursor scan of `parse_shifts_from_text` (`while i < len(lines) - 2`):
at a day-header line consume a 3-line block and advance by 3, otherwise
advance by 1; stop when fewer than 3 lines remain. -/
def scanBlocks (target : String) : List String → List (Nat × String × String)
  | l0 :: l1 :: l2 :: rest =>
    if isDayHeader l0 then
      blockRecords l0 l1 l2 target ++ scanBlocks target rest
    else
      scanBlocks target (l1 :: l2 :: rest)
  | _ => []

/-- The blocks the scan recognizes (header line plus the two lines it
consumes after it), in scan order. -/
def recognizedBlocks : List String → List (String × String × String)
  | l0 :: l1 :: l2 :: rest =>
    if isDayHeader l0 then (l0, l1, l2) :: recognizedBlocks rest
    else recognizedBlocks (l1 :: l2 :: rest)
  | _ => []

/-- The deduplication loop (`seen` set, first occurrence kept). -/
def dedupAux (seen : List (Nat × String × String)) :
    List (Nat × String × String) → List (Nat × String × String)
  | [] => []
  | r :: rs =>
    if r ∈ seen then dedupAux seen rs
    else r :: dedupAux (r :: seen) rs

/-- `uniq, seen = [], set(); ...` of the source: remove every record
equal to an earlier one, keeping first occurrences in order. -/
def dedupFirst (l : List (Nat × String × String)) :
    List (Nat × String × String) :=
  dedupAux [] l

/-- The normalized, blank-free line sequence the parser scans
(`lines = [normalize(ln) for ln in text.splitlines() if normalize(ln)]`). -/
def parseLines (text : String) : List String :=
  ((splitLines text).map normalize).filter (fun l => l ≠ "")

/-- The raw record sequence accumulated by the scan loop of
`parse_shifts_from_text`, before deduplication. -/
def rawMatches (text target : String) : List (Nat × String × String) :=
  scanBlocks target (parseLines text)

/-- `parse_shifts_from_text(text, target_name)`: split into lines,
normalize, drop blank lines, scan for blocks, deduplicate. -/
def parse_shifts_from_text (text target : String) :
    List (Nat × String × String) :=
  dedupFirst (rawMatches text target)

/-- The sort applied by `write_gcal_min_csv`
(`sorted(rows, key=lambda x: x[0])`): a stable sort by the day
component, modelled by insertion sort. -/
def sortByDay (rows : List (Nat × String × String)) :
    List (Nat × String × String) :=
  rows.insertionSort (fun a b => a.1 ≤ b.1)

/-- `f"{n:02d}"`: zero-padded two-digit decimal rendering. -/
def pad2 (n : Nat) : String :=
  if n < 10 then "0" ++ toString n else toString n

/-- `f"{n:04d}"`: zero-padded four-digit decimal rendering. -/
def pad4 (n : Nat) : String :=
  if n < 10 then "000" ++ toString n
  else if n < 100 then "00" ++ toString n
  else if n < 1000 then "0" ++ toString n
  else toString n

/-- The rows `write_gcal_min_csv` writes: a header row, then one row
per record, in day-ascending order, with the date zero-padded and the
start time verbatim (the `end` field is dropped by this projection). -/
def gcalRows (rows : List (Nat × String × String)) (year month : Nat)
    (subject : String) : List (List String) :=
  ["Subject", "Start Date", "Start Time"] ::
    (sortByDay rows).map (fun r =>
      [subject, pad4 year ++ "/" ++ pad2 month ++ "/" ++ pad2 r.1, r.2.1])

/-- The shape of a time string actually produced by the time-range
pattern's groups: one-or-two-digit hour, ASCII colon (after the
`replace("：", ":")`), two-digit minute.  No value-range check. -/
def hmShape (s : String) : Bool :=
  match s.data with
  | [h1, cl, m1, m2] => isDigitCh h1 && cl.toNat == 58 && isDigitCh m1 && isDigitCh m2
  | [h1, h2, cl, m1, m2] =>
    isDigitCh h1 && isDigitCh h2 && cl.toNat == 58 && isDigitCh m1 && isDigitCh m2
  | _ => false

/-- Stated from the spec's words (§3, ShiftRecord) for comparison with
the code: an `"HH:MM"` 24-hour time-of-day string — two-digit hour and
minute, hour value at most 23, minute value at most 59. -/
def hhmm24_spec (s : String) : Bool :=
  match s.data with
  | [h1, h2, cl, m1, m2] =>
    (48 ≤ h1.toNat && h1.toNat ≤ 57) && (48 ≤ h2.toNat && h2.toNat ≤ 57) &&
    cl.toNat == 58 &&
    (48 ≤ m1.toNat && m1.toNat ≤ 57) && (48 ≤ m2.toNat && m2.toNat ≤ 57) &&
    decide ((h1.toNat - 48) * 10 + (h2.toNat - 48) ≤ 23) &&
    decide ((m1.toNat - 48) * 10 + (m2.toNat - 48) ≤ 59)
  | _ => false

/-- The three lines of one schedule block. -/
def blockLines (b : String × String × String) : List String :=
  [b.1, b.2.1, b.2.2]

/-- A line stream made of schedule blocks with free-text line groups
interleaved before and between them (a trailing group, and all groups
past the last block, end the stream).  `assemble bs []` is the plain
concatenation of the blocks. -/
def assemble : List (String × String × String) → List (List String) → List String
  | [], ns => ns.flatten
  | b :: bs, [] => blockLines b ++ assemble bs []
  | b :: bs, n :: ns => n ++ (blockLines b ++ assemble bs ns)

/-! ## Character-level facts about the translation table -/

theorem z2h_cases (c : Char) :
    z2h c = c ∨
      z2h c ∈ ['0', '1', '2', '3', '4', '5', '6', '7', '8', '9', ':', '-', '~', ' '] := by
  by_cases h1 : c = '０'
  · subst h1; right; decide
  by_cases h2 : c = '１'
  · subst h2; right; decide
  by_cases h3 : c = '２'
  · subst h3; right; decide
  by_cases h4 : c = '３'
  · subst h4; right; decide
  by_cases h5 : c = '４'
  · subst h5; right; decide
  by_cases h6 : c = '５'
  · subst h6; right; decide
  by_cases h7 : c = '６'
  · subst h7; right; decide
  by_cases h8 : c = '７'
  · subst h8; right; decide
  by_cases h9 : c = '８'
  · subst h9; right; decide
  by_cases h10 : c = '９'
  · subst h10; right; decide
  by_cases h11 : c = '：'
  · subst h11; right; decide
  by_cases h12 : c = '－'
  · subst h12; right; decide
  by_cases h13 : c = 'ー'
  · subst h13; right; decide
  by_cases h14 : c = '〜'
  · subst h14; right; decide
  by_cases h15 : c = '～'
  · subst h15; right; decide
  by_cases h16 : c = '　'
  · subst h16; right; decide
  left
  simp only [z2h, if_neg h1, if_neg h2, if_neg h3, if_neg h4, if_neg h5, if_neg h6,
    if_neg h7, if_neg h8, if_neg h9, if_neg h10, if_neg h11, if_neg h12, if_neg h13,
    if_neg h14, if_neg h15, if_neg h16]

theorem z2h_fix {c : Char}
    (h : c ∈ ['0', '1', '2', '3', '4', '5', '6', '7', '8', '9', ':', '-', '~', ' ']) :
    z2h c = c := by
  fin_cases h <;> decide

theorem z2h_idem (c : Char) : z2h (z2h c) = z2h c := by
  rcases z2h_cases c with h | h
  · rw [h]; exact h
  · exact z2h_fix h

/-! ## The collapsed/stripped form is a fixed point of `normalize` -/

/-- Every whitespace character of the list is the ASCII space. -/
def WsOk (l : List Char) : Prop :=
  ∀ c ∈ l, isWs c = true → c = ' '

/-- Two adjacent characters are never both whitespace. -/
def NoWsPair (a b : Char) : Prop :=
  isWs a = false ∨ isWs b = false

theorem collapseWs_cons_not_ws {c : Char} (cs : List Char) (h : isWs c = false) :
    ∃ t, collapseWs (c :: cs) = c :: t := by
  cases cs with
  | nil => exact ⟨[], by simp [collapseWs, h]⟩
  | cons c2 cs2 => exact ⟨collapseWs (c2 :: cs2), by simp [collapseWs, h]⟩

theorem mem_collapseWs {l : List Char} {c : Char} (h : c ∈ collapseWs l) :
    c = ' ' ∨ (c ∈ l ∧ isWs c = false) := by
  induction l with
  | nil => simp [collapseWs] at h
  | cons c1 tl ih =>
    cases tl with
    | nil =>
      cases h1 : isWs c1
      · simp [collapseWs, h1] at h
        subst h; exact Or.inr ⟨by simp, h1⟩
      · simp [collapseWs, h1] at h
        exact Or.inl h
    | cons c2 cs =>
      cases h1 : isWs c1
      · rw [show collapseWs (c1 :: c2 :: cs) = c1 :: collapseWs (c2 :: cs) from by
          simp [collapseWs, h1]] at h
        rcases List.mem_cons.mp h with h | h
        · subst h; exact Or.inr ⟨by simp, h1⟩
        · rcases ih h with h | ⟨hm, hw⟩
          · exact Or.inl h
          · exact Or.inr ⟨List.mem_cons_of_mem _ hm, hw⟩
      · cases h2 : isWs c2
        · rw [show collapseWs (c1 :: c2 :: cs) = ' ' :: collapseWs (c2 :: cs) from by
            simp [collapseWs, h1, h2]] at h
          rcases List.mem_cons.mp h with h | h
          · exact Or.inl h
          · rcases ih h with h | ⟨hm, hw⟩
            · exact Or.inl h
            · exact Or.inr ⟨List.mem_cons_of_mem _ hm, hw⟩
        · rw [show collapseWs (c1 :: c2 :: cs) = collapseWs (c2 :: cs) from by
            simp [collapseWs, h1, h2]] at h
          rcases ih h with h | ⟨hm, hw⟩
          · exact Or.inl h
          · exact Or.inr ⟨List.mem_cons_of_mem _ hm, hw⟩

theorem chain_collapseWs (l : List Char) : List.Chain' NoWsPair (collapseWs l) := by
  induction l with
  | nil => simp [collapseWs]
  | cons c1 tl ih =>
    cases tl with
    | nil => cases h1 : isWs c1 <;> simp [collapseWs, h1]
    | cons c2 cs =>
      cases h1 : isWs c1
      · rw [show collapseWs (c1 :: c2 :: cs) = c1 :: collapseWs (c2 :: cs) from by
          simp [collapseWs, h1]]
        exact List.chain'_cons'.mpr ⟨fun y _ => Or.inl h1, ih⟩
      · cases h2 : isWs c2
        · rw [show collapseWs (c1 :: c2 :: cs) = ' ' :: collapseWs (c2 :: cs) from by
            simp [collapseWs, h1, h2]]
          refine List.chain'_cons'.mpr ⟨?_, ih⟩
          intro y hy
          obtain ⟨t, ht⟩ := collapseWs_cons_not_ws cs h2
          rw [ht] at hy
          simp at hy
          subst hy
          exact Or.inr h2
        · rw [show collapseWs (c1 :: c2 :: cs) = collapseWs (c2 :: cs) from by
            simp [collapseWs, h1, h2]]
          exact ih

theorem collapseWs_eq_self {l : List Char} (h1 : WsOk l)
    (h2 : List.Chain' NoWsPair l) : collapseWs l = l := by
  induction l with
  | nil => simp [collapseWs]
  | cons c1 tl ih =>
    cases tl with
    | nil =>
      cases hw : isWs c1
      · simp [collapseWs, hw]
      · have hc : c1 = ' ' := h1 c1 (by simp) hw
        subst hc; simp [collapseWs]
    | cons c2 cs =>
      have hpair : NoWsPair c1 c2 := (List.chain'_cons.mp h2).1
      have htl : collapseWs (c2 :: cs) = c2 :: cs :=
        ih (fun c hc hw => h1 c (List.mem_cons_of_mem _ hc) hw)
          (List.chain'_cons.mp h2).2
      cases hw1 : isWs c1
      · simp [collapseWs, hw1, htl]
      · have hc1 : c1 = ' ' := h1 c1 (by simp) hw1
        have hw2 : isWs c2 = false := by
          rcases hpair with h | h
          · rw [hw1] at h; cases h
          · exact h
        subst hc1
        simp [collapseWs, hw1, hw2, htl]

theorem stripWs_within (l : List Char) : stripWs l <:+: l :=
  (List.rdropWhile_prefix _ _).isInfix.trans (List.dropWhile_suffix _).isInfix

theorem dropWhile_eq_self_of_front {p : Char → Bool} {A m : List Char}
    (hA : List.dropWhile p A = A) (hm : m <+: A) :
    List.dropWhile p m = m := by
  cases m with
  | nil => simp
  | cons x xs =>
    obtain ⟨t, ht⟩ := hm
    have hx : p x = false := by
      cases hx : p x
      · rfl
      · exfalso
        rw [← ht, List.cons_append, List.dropWhile_cons, hx] at hA
        simp only [if_true] at hA
        have hlen := congrArg List.length hA
        have hle : (List.dropWhile p (xs ++ t)).length ≤ (xs ++ t).length :=
          (List.dropWhile_suffix p).sublist.length_le
        simp at hlen hle
        omega
    simp [List.dropWhile_cons, hx]

theorem stripWs_idem (l : List Char) : stripWs (stripWs l) = stripWs l := by
  unfold stripWs
  rw [dropWhile_eq_self_of_front (List.dropWhile_idempotent _ _)
    (List.rdropWhile_prefix _ _), List.rdropWhile_idempotent]

theorem map_eq_self_of_fixes {l : List Char} {f : Char → Char}
    (h : ∀ c ∈ l, f c = c) : l.map f = l := by
  induction l with
  | nil => rfl
  | cons x xs ih => simp [h x (by simp), ih (fun c hc => h c (by simp [hc]))]

theorem normalize_idem_data (l : List Char) :
    stripWs (collapseWs ((stripWs (collapseWs (l.map z2h))).map z2h)) =
      stripWs (collapseWs (l.map z2h)) := by
  have hmem : ∀ c ∈ stripWs (collapseWs (l.map z2h)), c ∈ collapseWs (l.map z2h) :=
    fun c hc => (stripWs_within (collapseWs (l.map z2h))).subset hc
  have hmap : (stripWs (collapseWs (l.map z2h))).map z2h =
      stripWs (collapseWs (l.map z2h)) := by
    refine map_eq_self_of_fixes (fun c hc => ?_)
    rcases mem_collapseWs (hmem c hc) with h | ⟨hmemX, _⟩
    · subst h; decide
    · obtain ⟨d, _, hd⟩ := List.mem_map.mp hmemX
      subst hd
      exact z2h_idem d
  rw [hmap]
  have hcol : collapseWs (stripWs (collapseWs (l.map z2h))) =
      stripWs (collapseWs (l.map z2h)) := by
    refine collapseWs_eq_self (fun c hc hw => ?_) ?_
    · rcases mem_collapseWs (hmem c hc) with h | ⟨_, hf⟩
      · exact h
      · rw [hw] at hf; cases hf
    · exact List.Chain'.infix (chain_collapseWs (l.map z2h))
        (stripWs_within (collapseWs (l.map z2h)))
  rw [hcol]
  exact stripWs_idem (collapseWs (l.map z2h))

/-- C8: `normalize` is idempotent — for every string `s`,
`normalize (normalize s) = normalize s`. -/
theorem c8_normalize_idempotent (s : String) :
    normalize (normalize s) = normalize s :=
  congrArg String.mk (normalize_idem_data s.data)

/-! ## Tokenization facts -/

theorem isWs_space : isWs ' ' = true := by decide

theorem splitOnSpaceAux_first (cs : List Char) :
    ∃ h t, ∀ acc, splitOnSpaceAux cs acc = ⟨acc.reverse ++ h⟩ :: t := by
  induction cs with
  | nil => exact ⟨[], [], fun acc => by simp [splitOnSpaceAux]⟩
  | cons c cs ih =>
    by_cases hc : c = ' '
    · exact ⟨[], splitOnSpaceAux cs [], fun acc => by simp [splitOnSpaceAux, hc]⟩
    · obtain ⟨h, t, hht⟩ := ih
      refine ⟨c :: h, t, fun acc => ?_⟩
      rw [show splitOnSpaceAux (c :: cs) acc = splitOnSpaceAux cs (c :: acc) from by
        simp [splitOnSpaceAux, hc]]
      rw [hht (c :: acc)]
      simp

theorem splitWsAux_eq_splitOnSpaceAux (cs : List Char) :
    ∀ acc, (∀ c ∈ acc, isWs c = false) →
      (∀ p ∈ splitOnSpaceAux cs acc, p ≠ "" ∧ ∀ c ∈ p.data, isWs c = false) →
      splitWsAux cs acc = splitOnSpaceAux cs acc := by
  induction cs with
  | nil =>
    intro acc _ hp
    have h1 := (hp ⟨acc.reverse⟩ (by simp [splitOnSpaceAux])).1
    cases acc with
    | nil => exact absurd rfl h1
    | cons a as => simp [splitWsAux, splitOnSpaceAux]
  | cons c cs ih =>
    intro acc hacc hp
    by_cases hc : c = ' '
    · subst hc
      have h1 := (hp ⟨acc.reverse⟩ (by simp [splitOnSpaceAux])).1
      cases acc with
      | nil => exact absurd rfl h1
      | cons a as =>
        rw [show splitWsAux (' ' :: cs) (a :: as) =
            ⟨(a :: as).reverse⟩ :: splitWsAux cs [] from by
          simp [splitWsAux, isWs_space]]
        rw [show splitOnSpaceAux (' ' :: cs) (a :: as) =
            ⟨(a :: as).reverse⟩ :: splitOnSpaceAux cs [] from by
          simp [splitOnSpaceAux]]
        congr 1
        exact ih [] (by simp)
          (fun p hpmem => hp p (by simp [splitOnSpaceAux, hpmem]))
    · obtain ⟨h, t, hht⟩ := splitOnSpaceAux_first cs
      have hsp : splitOnSpaceAux (c :: cs) acc = splitOnSpaceAux cs (c :: acc) := by
        simp [splitOnSpaceAux, hc]
      have hcw : isWs c = false := by
        have hmem : (⟨(c :: acc).reverse ++ h⟩ : String) ∈ splitOnSpaceAux (c :: cs) acc := by
          rw [hsp, hht (c :: acc)]
          simp
        exact (hp _ hmem).2 c (by simp)
      rw [show splitWsAux (c :: cs) acc = splitWsAux cs (c :: acc) from by
        simp [splitWsAux, hcw]]
      rw [hsp]
      refine ih (c :: acc) ?_ ?_
      · intro d hd
        rcases List.mem_cons.mp hd with h' | h'
        · subst h'; exact hcw
        · exact hacc d h'
      · intro p hpmem
        exact hp p (by rw [hsp]; exact hpmem)

theorem isWs_false_of_digitRange {c : Char} (h1 : 48 ≤ c.toNat) (h2 : c.toNat ≤ 57) :
    isWs c = false := by
  simp only [isWs, Bool.or_eq_false_iff, Bool.and_eq_false_iff,
    decide_eq_false_iff_not, beq_eq_false_iff_ne, ne_eq, Nat.not_le]
  omega

theorem isDigitCh_bounds {c : Char} (h : isDigitCh c = true) :
    ∃ b, b ∈ ndBases ∧ b ≤ c.toNat ∧ c.toNat ≤ b + 9 := by
  simp only [isDigitCh, List.any_eq_true, Bool.and_eq_true, decide_eq_true_eq] at h
  exact h

theorem isWs_false_of_digit {c : Char} (h : isDigitCh c = true) :
    isWs c = false := by
  obtain ⟨b, hb, hr⟩ := isDigitCh_bounds h
  simp only [ndBases, List.mem_cons, List.not_mem_nil, or_false] at hb
  simp only [isWs, Bool.or_eq_false_iff, Bool.and_eq_false_iff,
    decide_eq_false_iff_not, beq_eq_false_iff_ne, ne_eq, Nat.not_le]
  omega

theorem digitValAux_head {b : Nat} {bs : List Nat} {n : Nat}
    (h1 : b ≤ n) (h2 : n ≤ b + 9) : digitValAux (b :: bs) n = n - b := by
  unfold digitValAux
  rw [if_pos (by simp only [Bool.and_eq_true, decide_eq_true_eq]; omega)]

theorem digitVal_ascii {c : Char} (h1 : 48 ≤ c.toNat) (h2 : c.toNat ≤ 57) :
    digitVal c = c.toNat - 48 := by
  unfold digitVal ndBases
  exact digitValAux_head h1 (by omega)

theorem digitValAux_le_nine : ∀ (bs : List Nat) (n : Nat), digitValAux bs n ≤ 9
  | [], _ => by simp [digitValAux]
  | b :: bs, n => by
    unfold digitValAux
    by_cases hc : (b ≤ n && n ≤ b + 9) = true
    · rw [if_pos hc]
      simp only [Bool.and_eq_true, decide_eq_true_eq] at hc
      omega
    · rw [if_neg hc]
      exact digitValAux_le_nine bs n

theorem digitVal_le_nine (c : Char) : digitVal c ≤ 9 :=
  digitValAux_le_nine ndBases c.toNat

theorem isDayTok_props {t : String} (h : isDayTok t = true) :
    t ≠ "" ∧ ∀ c ∈ t.data, isWs c = false := by
  unfold isDayTok at h
  split at h
  case _ c heq =>
    simp only [Bool.and_eq_true, decide_eq_true_eq] at h
    refine ⟨?_, ?_⟩
    · intro he
      rw [he] at heq
      cases heq
    · intro d hd
      rw [heq] at hd
      simp at hd
      subst hd
      exact isWs_false_of_digitRange (by omega) (by omega)
  case _ c1 c2 heq =>
    simp only [Bool.or_eq_true, Bool.and_eq_true, beq_iff_eq,
      decide_eq_true_eq] at h
    refine ⟨?_, ?_⟩
    · intro he
      rw [he] at heq
      cases heq
    · intro d hd
      rw [heq] at hd
      simp at hd
      rcases hd with hd | hd <;> subst hd
      · rcases h with ⟨h1, h2⟩ | ⟨h1, h2⟩ <;>
          exact isWs_false_of_digitRange (by omega) (by omega)
      · rcases h with ⟨h1, h2⟩ | ⟨h1, h2⟩
        · exact isWs_false_of_digit h2
        · exact isWs_false_of_digitRange (by omega) (by omega)
  case _ => cases h

theorem parseNat_day_bound {t : String} (h : isDayTok t = true) :
    1 ≤ parseNat t ∧ parseNat t ≤ 31 := by
  unfold isDayTok at h
  split at h
  case _ c heq =>
    simp only [Bool.and_eq_true, decide_eq_true_eq] at h
    unfold parseNat
    rw [heq]
    simp only [List.foldl_cons, List.foldl_nil]
    have hv : digitVal c = c.toNat - 48 := digitVal_ascii (by omega) (by omega)
    omega
  case _ c1 c2 heq =>
    simp only [Bool.or_eq_true, Bool.and_eq_true, beq_iff_eq,
      decide_eq_true_eq] at h
    unfold parseNat
    rw [heq]
    simp only [List.foldl_cons, List.foldl_nil]
    rcases h with ⟨h1, h2⟩ | ⟨h1, h2⟩
    · have hv1 : digitVal c1 = c1.toNat - 48 := digitVal_ascii (by omega) (by omega)
      have hv2 : digitVal c2 ≤ 9 := digitVal_le_nine c2
      omega
    · have hv1 : digitVal c1 = c1.toNat - 48 := digitVal_ascii (by omega) (by omega)
      have hv2 : digitVal c2 = c2.toNat - 48 := digitVal_ascii (by omega) (by omega)
      omega
  case _ => cases h

theorem isDayHeader_tokens {s : String} (h : isDayHeader s = true) :
    splitWs s = splitOnSpace s.data ∧
      ∀ p ∈ splitOnSpace s.data, isDayTok p = true := by
  unfold isDayHeader at h
  simp only [Bool.and_eq_true, decide_eq_true_eq, List.all_eq_true] at h
  refine ⟨?_, h.2⟩
  unfold splitWs splitOnSpace
  exact splitWsAux_eq_splitOnSpaceAux s.data [] (by simp)
    (fun p hp => isDayTok_props (h.2 p hp))

theorem header_days_bound {s : String} (h : isDayHeader s = true) :
    ∀ d ∈ (splitWs s).map parseNat, 1 ≤ d ∧ d ≤ 31 := by
  obtain ⟨heq, hall⟩ := isDayHeader_tokens h
  intro d hd
  rw [heq] at hd
  obtain ⟨tok, htok, rfl⟩ := List.mem_map.mp hd
  exact parseNat_day_bound (hall tok htok)

theorem splitOnSpaceAux_no_space {cs : List Char} (h : ∀ c ∈ cs, c ≠ ' ') :
    ∀ acc, splitOnSpaceAux cs acc = [⟨acc.reverse ++ cs⟩] := by
  induction cs with
  | nil => intro acc; simp [splitOnSpaceAux]
  | cons c cs ih =>
    intro acc
    rw [show splitOnSpaceAux (c :: cs) acc = splitOnSpaceAux cs (c :: acc) from by
      simp [splitOnSpaceAux, h c (by simp)]]
    rw [ih (fun d hd => h d (by simp [hd])) (c :: acc)]
    simp

/-! ## Scan-loop facts -/

theorem scanBlocks_cons_not_header {t l : String} {rest : List String}
    (h : isDayHeader l = false) :
    scanBlocks t (l :: rest) = scanBlocks t rest := by
  cases rest with
  | nil => rfl
  | cons x rest2 =>
    cases rest2 with
    | nil => rfl
    | cons y zs => simp [scanBlocks, h]

theorem scanBlocks_cons_header {t l0 l1 l2 : String} {rest : List String}
    (h : isDayHeader l0 = true) :
    scanBlocks t (l0 :: l1 :: l2 :: rest) =
      blockRecords l0 l1 l2 t ++ scanBlocks t rest := by
  simp [scanBlocks, h]

theorem scanBlocks_nil_of_no_header {t : String} {ls : List String}
    (h : ∀ l ∈ ls, isDayHeader l = false) : scanBlocks t ls = [] := by
  induction ls with
  | nil => rfl
  | cons l rest ih =>
    rw [scanBlocks_cons_not_header (h l (by simp))]
    exact ih (fun x hx => h x (by simp [hx]))

theorem scanBlocks_append_noise {t : String} {n rest : List String}
    (h : ∀ l ∈ n, isDayHeader l = false) :
    scanBlocks t (n ++ rest) = scanBlocks t rest := by
  induction n with
  | nil => rfl
  | cons l n ih =>
    rw [List.cons_append, scanBlocks_cons_not_header (h l (by simp))]
    exact ih (fun x hx => h x (by simp [hx]))

theorem scanBlocks_eq_flatten (t : String) :
    ∀ ls, scanBlocks t ls =
      ((recognizedBlocks ls).map (fun b => blockRecords b.1 b.2.1 b.2.2 t)).flatten
  | [] => rfl
  | [_] => rfl
  | [_, _] => rfl
  | l0 :: l1 :: l2 :: rest => by
    cases h : isDayHeader l0
    · rw [scanBlocks_cons_not_header h]
      rw [show recognizedBlocks (l0 :: l1 :: l2 :: rest) =
          recognizedBlocks (l1 :: l2 :: rest) from by simp [recognizedBlocks, h]]
      exact scanBlocks_eq_flatten t (l1 :: l2 :: rest)
    · rw [scanBlocks_cons_header h]
      rw [show recognizedBlocks (l0 :: l1 :: l2 :: rest) =
          (l0, l1, l2) :: recognizedBlocks rest from by simp [recognizedBlocks, h]]
      rw [List.map_cons, List.flatten_cons, scanBlocks_eq_flatten t rest]

theorem recognizedBlocks_header :
    ∀ ls, ∀ b ∈ recognizedBlocks ls, isDayHeader b.1 = true
  | [] => fun b hb => absurd hb (List.not_mem_nil b)
  | [_] => fun b hb => absurd hb (List.not_mem_nil b)
  | [_, _] => fun b hb => absurd hb (List.not_mem_nil b)
  | l0 :: l1 :: l2 :: rest => by
    cases h : isDayHeader l0
    · rw [show recognizedBlocks (l0 :: l1 :: l2 :: rest) =
          recognizedBlocks (l1 :: l2 :: rest) from by simp [recognizedBlocks, h]]
      exact recognizedBlocks_header (l1 :: l2 :: rest)
    · rw [show recognizedBlocks (l0 :: l1 :: l2 :: rest) =
          (l0, l1, l2) :: recognizedBlocks rest from by simp [recognizedBlocks, h]]
      intro b hb
      rcases List.mem_cons.mp hb with hb | hb
      · subst hb; exact h
      · exact recognizedBlocks_header rest b hb

/-! ## Deduplication facts -/

theorem mem_dedupAux {x : Nat × String × String} :
    ∀ (l seen : List (Nat × String × String)),
      (x ∈ dedupAux seen l ↔ x ∈ l ∧ x ∉ seen)
  | [], seen => by simp [dedupAux]
  | r :: rs, seen => by
    by_cases hr : r ∈ seen
    · rw [show dedupAux seen (r :: rs) = dedupAux seen rs from by simp [dedupAux, hr]]
      rw [mem_dedupAux rs seen]
      constructor
      · rintro ⟨h1, h2⟩
        exact ⟨List.mem_cons_of_mem _ h1, h2⟩
      · rintro ⟨h1, h2⟩
        rcases List.mem_cons.mp h1 with h1 | h1
        · subst h1; exact absurd hr h2
        · exact ⟨h1, h2⟩
    · rw [show dedupAux seen (r :: rs) = r :: dedupAux (r :: seen) rs from by
        simp [dedupAux, hr]]
      constructor
      · intro h
        rcases List.mem_cons.mp h with h | h
        · subst h; exact ⟨by simp, hr⟩
        · have := (mem_dedupAux rs (r :: seen)).mp h
          refine ⟨List.mem_cons_of_mem _ this.1, fun hs => this.2 (by simp [hs])⟩
      · rintro ⟨h1, h2⟩
        rcases List.mem_cons.mp h1 with h1 | h1
        · subst h1; simp
        · by_cases hxr : x = r
          · subst hxr; simp
          · exact List.mem_cons_of_mem _
              ((mem_dedupAux rs (r :: seen)).mpr ⟨h1, by simp [hxr, h2]⟩)

theorem nodup_dedupAux :
    ∀ (l seen : List (Nat × String × String)), (dedupAux seen l).Nodup
  | [], seen => by simp [dedupAux]
  | r :: rs, seen => by
    by_cases hr : r ∈ seen
    · rw [show dedupAux seen (r :: rs) = dedupAux seen rs from by simp [dedupAux, hr]]
      exact nodup_dedupAux rs seen
    · rw [show dedupAux seen (r :: rs) = r :: dedupAux (r :: seen) rs from by
        simp [dedupAux, hr]]
      refine List.nodup_cons.mpr ⟨?_, nodup_dedupAux rs (r :: seen)⟩
      intro hmem
      exact ((mem_dedupAux rs (r :: seen)).mp hmem).2 (by simp)

theorem dedupAux_sublist :
    ∀ (l seen : List (Nat × String × String)), List.Sublist (dedupAux seen l) l
  | [], seen => by simp [dedupAux]
  | r :: rs, seen => by
    by_cases hr : r ∈ seen
    · rw [show dedupAux seen (r :: rs) = dedupAux seen rs from by simp [dedupAux, hr]]
      exact (dedupAux_sublist rs seen).cons r
    · rw [show dedupAux seen (r :: rs) = r :: dedupAux (r :: seen) rs from by
        simp [dedupAux, hr]]
      exact (dedupAux_sublist rs (r :: seen)).cons₂ r

theorem dedupAux_length_eq :
    ∀ (l seen : List (Nat × String × String)),
      ((dedupAux seen l).length = l.length ↔ l.Nodup ∧ ∀ x ∈ l, x ∉ seen)
  | [], seen => by simp [dedupAux]
  | r :: rs, seen => by
    by_cases hr : r ∈ seen
    · rw [show dedupAux seen (r :: rs) = dedupAux seen rs from by simp [dedupAux, hr]]
      have hle : (dedupAux seen rs).length ≤ rs.length :=
        (dedupAux_sublist rs seen).length_le
      simp only [List.length_cons]
      constructor
      · intro h; omega
      · rintro ⟨_, h2⟩
        exact absurd hr (h2 r (by simp))
    · rw [show dedupAux seen (r :: rs) = r :: dedupAux (r :: seen) rs from by
        simp [dedupAux, hr]]
      simp only [List.length_cons, Nat.add_right_cancel_iff,
        dedupAux_length_eq rs (r :: seen), List.nodup_cons]
      constructor
      · rintro ⟨h1, h2⟩
        refine ⟨⟨fun hmem => (h2 r hmem (by simp)).elim, h1⟩, ?_⟩
        intro x hx
        rcases List.mem_cons.mp hx with hx | hx
        · subst hx; exact hr
        · exact fun hs => h2 x hx (by simp [hs])
      · rintro ⟨⟨h1, h2⟩, h3⟩
        refine ⟨h2, ?_⟩
        intro x hx hs
        rcases List.mem_cons.mp hs with hs | hs
        · subst hs; exact h1 hx
        · exact h3 x (by simp [hx]) hs

/-! ## Block-record facts -/

theorem colonFix_digit {c : Char} (h : isDigitCh c = true) : colonFix c = c := by
  obtain ⟨b, hb, hr⟩ := isDigitCh_bounds h
  simp only [ndBases, List.mem_cons, List.not_mem_nil, or_false] at hb
  unfold colonFix
  rw [if_neg (by simp only [beq_iff_eq]; omega)]

theorem colonFix_colon_toNat {c : Char} (h : isColonCh c = true) :
    (colonFix c).toNat = 58 := by
  simp only [isColonCh, Bool.or_eq_true, beq_iff_eq] at h
  unfold colonFix
  rcases h with h | h
  · rw [if_neg (by simp only [beq_iff_eq]; omega)]
    exact h
  · rw [if_pos (by simp [h])]
    decide

theorem matchHM_shape {cs g rest : List Char}
    (h : matchHM cs = some (g, rest)) : hmShape ⟨g.map colonFix⟩ = true := by
  unfold matchHM at h
  split at h
  next c1 c2 r =>
    by_cases h1 : isDigitCh c1 = true
    case neg => rw [if_neg h1] at h; exact Option.noConfusion h
    rw [if_pos h1] at h
    by_cases h2 : isDigitCh c2 = true
    · rw [if_pos h2] at h
      split at h
      next c3 c4 c5 r2 =>
        by_cases h3 : (isColonCh c3 && isDigitCh c4 && isDigitCh c5) = true
        case neg => rw [if_neg h3] at h; exact Option.noConfusion h
        rw [if_pos h3] at h
        simp only [Bool.and_eq_true] at h3
        obtain ⟨⟨hc3, hc4⟩, hc5⟩ := h3
        injection h with h
        have hg : [c1, c2, c3, c4, c5] = g := congrArg Prod.fst h
        subst hg
        simp [hmShape, colonFix_digit h1, colonFix_digit h2, colonFix_digit hc4,
          colonFix_digit hc5, colonFix_colon_toNat hc3, h1, h2, hc4, hc5]
      next => exact Option.noConfusion h
    · rw [if_neg h2] at h
      by_cases h2c : isColonCh c2 = true
      case neg => rw [if_neg h2c] at h; exact Option.noConfusion h
      rw [if_pos h2c] at h
      split at h
      next c3 c4 r2 =>
        by_cases h3 : (isDigitCh c3 && isDigitCh c4) = true
        case neg => rw [if_neg h3] at h; exact Option.noConfusion h
        rw [if_pos h3] at h
        simp only [Bool.and_eq_true] at h3
        obtain ⟨hc3, hc4⟩ := h3
        injection h with h
        have hg : [c1, c2, c3, c4] = g := congrArg Prod.fst h
        subst hg
        simp [hmShape, colonFix_digit h1, colonFix_digit hc3, colonFix_digit hc4,
          colonFix_colon_toNat h2c, h1, hc3, hc4]
      next => exact Option.noConfusion h
  next => exact Option.noConfusion h

theorem matchTimeRange_shape {s : String} {a b : String}
    (h : matchTimeRange s = some (a, b)) :
    hmShape a = true ∧ hmShape b = true := by
  unfold matchTimeRange at h
  split at h
  next g1 rest heq1 =>
    split at h
    next sep rest2 =>
      by_cases hsep : isSepCh sep = true
      case neg => rw [if_neg hsep] at h; exact Option.noConfusion h
      rw [if_pos hsep] at h
      split at h
      next g2 r3 heq2 =>
        injection h with h
        have ha : (⟨g1.map colonFix⟩ : String) = a := congrArg Prod.fst h
        have hb : (⟨g2.map colonFix⟩ : String) = b := congrArg Prod.snd h
        subst ha
        subst hb
        exact ⟨matchHM_shape heq1, matchHM_shape heq2⟩
      next => exact Option.noConfusion h
    next => exact Option.noConfusion h
  next => exact Option.noConfusion h

theorem matchHM_append {cs g rest : List Char} (e : List Char)
    (h : matchHM cs = some (g, rest)) :
    matchHM (cs ++ e) = some (g, rest ++ e) := by
  unfold matchHM at h ⊢
  split at h
  next c1 c2 r =>
    by_cases h1 : isDigitCh c1 = true
    case neg => rw [if_neg h1] at h; exact Option.noConfusion h
    rw [if_pos h1] at h
    simp only [List.cons_append]
    rw [if_pos h1]
    by_cases h2 : isDigitCh c2 = true
    · rw [if_pos h2] at h
      rw [if_pos h2]
      split at h
      next c3 c4 c5 r2 =>
        by_cases h3 : (isColonCh c3 && isDigitCh c4 && isDigitCh c5) = true
        case neg => rw [if_neg h3] at h; exact Option.noConfusion h
        rw [if_pos h3] at h
        injection h with h
        have hg : [c1, c2, c3, c4, c5] = g := congrArg Prod.fst h
        have hr : r2 = rest := congrArg Prod.snd h
        subst hg
        subst hr
        simp only [List.cons_append]
        rw [if_pos h3]
      next => exact Option.noConfusion h
    · rw [if_neg h2] at h
      rw [if_neg h2]
      by_cases h2c : isColonCh c2 = true
      case neg => rw [if_neg h2c] at h; exact Option.noConfusion h
      rw [if_pos h2c] at h
      rw [if_pos h2c]
      split at h
      next c3 c4 r2 =>
        by_cases h3 : (isDigitCh c3 && isDigitCh c4) = true
        case neg => rw [if_neg h3] at h; exact Option.noConfusion h
        rw [if_pos h3] at h
        injection h with h
        have hg : [c1, c2, c3, c4] = g := congrArg Prod.fst h
        have hr : r2 = rest := congrArg Prod.snd h
        subst hg
        subst hr
        simp only [List.cons_append]
        rw [if_pos h3]
      next => exact Option.noConfusion h
  next => exact Option.noConfusion h

theorem matchTimeRange_append {s : String} {p : String × String} (e : List Char)
    (h : matchTimeRange s = some p) :
    matchTimeRange ⟨s.data ++ e⟩ = some p := by
  unfold matchTimeRange at h ⊢
  split at h
  next g1 rest heq1 =>
    split at h
    next sep rest2 =>
      by_cases hsep : isSepCh sep = true
      case neg => rw [if_neg hsep] at h; exact Option.noConfusion h
      rw [if_pos hsep] at h
      split at h
      next g2 r3 heq2 =>
        have hstep : matchHM (s.data ++ e) = some (g1, (sep :: rest2) ++ e) :=
          matchHM_append e heq1
        rw [show (⟨s.data ++ e⟩ : String).data = s.data ++ e from rfl, hstep]
        simp only [List.cons_append]
        rw [if_pos hsep]
        rw [matchHM_append e heq2]
        exact h
      next => exact Option.noConfusion h
    next => exact Option.noConfusion h
  next => exact Option.noConfusion h

theorem colRecords_mem {days : List Nat} {names times : List String}
    {target : String} {r : Nat × String × String}
    (h : r ∈ colRecords days names times target) :
    r.1 ∈ days ∧ ∃ tm, matchTimeRange tm = some (r.2.1, r.2.2) := by
  unfold colRecords at h
  obtain ⟨c, hc, hfc⟩ := List.mem_filterMap.mp h
  have hmem := List.of_mem_zip hc
  split at hfc
  · split at hfc
    next se heq =>
      injection hfc with hfc
      subst hfc
      exact ⟨hmem.1, ⟨c.2.2, by rw [heq]⟩⟩
    next => exact Option.noConfusion hfc
  · exact Option.noConfusion hfc

theorem colRecords_eq_nil {days : List Nat} {names times : List String}
    {target : String} (h : target ∉ names) :
    colRecords days names times target = [] := by
  unfold colRecords
  rw [List.filterMap_eq_nil_iff]
  intro c hc
  have hnm : ¬(c.2.1 = target) :=
    fun he => h (he ▸ (List.of_mem_zip (List.of_mem_zip hc).2).1)
  simp [hnm]

theorem blockRecords_day_time {l0 l1 l2 target : String}
    {r : Nat × String × String} (hh : isDayHeader l0 = true)
    (h : r ∈ blockRecords l0 l1 l2 target) :
    (1 ≤ r.1 ∧ r.1 ≤ 31) ∧ hmShape r.2.1 = true ∧ hmShape r.2.2 = true := by
  unfold blockRecords at h
  obtain ⟨hd, tm, htm⟩ := colRecords_mem h
  exact ⟨header_days_bound hh r.1 hd, matchTimeRange_shape htm⟩

/-! ## Helper for a single-token line -/

theorem splitOnSpace_no_space {t : String} (hns : ∀ c ∈ t.data, c ≠ ' ') :
    splitOnSpace t.data = [t] := by
  unfold splitOnSpace
  rw [splitOnSpaceAux_no_space hns []]
  simp

/-! ## The claims -/

/-- C1 counterexample: the normalized line `"5"` — a single day token —
is NOT classified as a day-header row by the parser's test, and a
3-line block headed by it is not recognized (the parser returns no
record for it). -/
theorem c1_counterexample :
    isDayHeader "5" = false ∧
      parse_shifts_from_text "5\n山縣\n09:00-17:00" "山縣" = [] :=
  ⟨by decide, by decide⟩

/-- C1 (amended): the day-header test of `parse_shifts_from_text`
requires at least two day tokens (the regular expression ends in a
mandatory ` token` repetition), so a line consisting of exactly one
day token in [1,31] with no leading zero is never classified as a
DayHeaderRow, and single-day-column blocks are not recognized. -/
theorem c1_single_day_token_not_header (t : String) (h : isDayTok t = true) :
    isDayHeader t = false := by
  have hprops := isDayTok_props h
  have hns : ∀ c ∈ t.data, c ≠ ' ' := by
    intro c hc he
    have hw := hprops.2 c hc
    rw [he] at hw
    simp [isWs_space] at hw
  unfold isDayHeader
  rw [splitOnSpace_no_space hns]
  simp

/-- Witness for C1: the concrete single-token line `"5"`. -/
theorem c1_witness : isDayTok "5" = true ∧ isDayHeader "5" = false :=
  ⟨by decide, c1_single_day_token_not_header "5" (by decide)⟩

/-- C2 counterexample: the parser's own return value is NOT sorted by
day — a block whose header lists days out of order yields records in
column order (here day 2 before day 1). -/
theorem c2_counterexample :
    parse_shifts_from_text "2 1\n山縣 山縣\n09:00-10:00 11:00-12:00" "山縣" =
      [(2, "09:00", "10:00"), (1, "11:00", "12:00")] ∧
    ¬ List.Chain' (fun a b => a.1 ≤ b.1)
      (parse_shifts_from_text "2 1\n山縣 山縣\n09:00-10:00 11:00-12:00" "山縣") := by
  refine ⟨by decide, ?_⟩
  rw [show parse_shifts_from_text "2 1\n山縣 山縣\n09:00-10:00 11:00-12:00" "山縣" =
      [(2, "09:00", "10:00"), (1, "11:00", "12:00")] from by decide]
  simp [List.chain'_cons]

instance : IsTotal (Nat × String × String) (fun a b => a.1 ≤ b.1) :=
  ⟨fun a b => Nat.le_total a.1 b.1⟩

instance : IsTrans (Nat × String × String) (fun a b => a.1 ≤ b.1) :=
  ⟨fun _ _ _ h1 h2 => Nat.le_trans h1 h2⟩

/-- C2 (amended): `parse_shifts_from_text` returns records in scan
order, not sorted; the day-ascending order is established at the
serialization boundary — `write_gcal_min_csv` sorts the records by day
(`sortByDay`, used by `gcalRows`) before writing, and that sorted
sequence is a permutation of the parser's output, non-decreasing in
the day component. -/
theorem c2_output_sorted_by_day (rows : List (Nat × String × String)) :
    List.Perm (sortByDay rows) rows ∧
      List.Sorted (fun a b => a.1 ≤ b.1) (sortByDay rows) :=
  ⟨List.perm_insertionSort _ rows, List.sorted_insertionSort _ rows⟩

/-- The scan over blocks interleaved with non-header noise yields
exactly the per-block records, in block order. -/
theorem scanBlocks_assemble (t : String) :
    ∀ (bs : List (String × String × String)) (ns : List (List String)),
      (∀ b ∈ bs, isDayHeader b.1 = true) →
      (∀ n ∈ ns, ∀ l ∈ n, isDayHeader l = false) →
      scanBlocks t (assemble bs ns) =
        (bs.map (fun b => blockRecords b.1 b.2.1 b.2.2 t)).flatten
  | [], ns => by
    intro _ hn
    rw [show assemble [] ns = ns.flatten from rfl]
    rw [scanBlocks_nil_of_no_header ?_]
    · simp
    · intro l hl
      obtain ⟨n, hnmem, hlmem⟩ := List.mem_flatten.mp hl
      exact hn n hnmem l hlmem
  | b :: bs, [] => by
    intro hb hn
    rw [show assemble (b :: bs) [] = b.1 :: b.2.1 :: b.2.2 :: assemble bs [] from rfl]
    rw [scanBlocks_cons_header (hb b (by simp))]
    rw [scanBlocks_assemble t bs [] (fun x hx => hb x (by simp [hx])) (by simp)]
    simp
  | b :: bs, n :: ns => by
    intro hb hn
    rw [show assemble (b :: bs) (n :: ns) =
        n ++ (b.1 :: b.2.1 :: b.2.2 :: assemble bs ns) from rfl]
    rw [scanBlocks_append_noise (hn n (by simp))]
    rw [scanBlocks_cons_header (hb b (by simp))]
    rw [scanBlocks_assemble t bs ns (fun x hx => hb x (by simp [hx]))
      (fun m hm => hn m (by simp [hm]))]
    simp

/-- C3 counterexample: inserting the free-text line `"3 4"` before a
valid block changes the parser's result — the inserted line passes the
day-header shape test, consumes the real block's header and names rows
as its own names/times rows, and the records of the valid block are
lost. -/
theorem c3_counterexample :
    parse_shifts_from_text "1 2\n山縣 山縣\n09:00-10:00 11:00-12:00" "山縣" =
      [(1, "09:00", "10:00"), (2, "11:00", "12:00")] ∧
    parse_shifts_from_text "3 4\n1 2\n山縣 山縣\n09:00-10:00 11:00-12:00" "山縣" =
      [] :=
  ⟨by decide, by decide⟩

/-- C3 (amended): inserting free-text line groups before, after, or
between valid 3-line blocks (none inside a block) yields the same
record sequence — and hence the same deduplicated result — provided no
inserted line itself passes the day-header shape test; an inserted
line that does pass it can consume a following block (see the
counterexample). -/
theorem c3_noise_invariance (target : String)
    (bs : List (String × String × String)) (ns : List (List String))
    (hb : ∀ b ∈ bs, isDayHeader b.1 = true)
    (hn : ∀ n ∈ ns, ∀ l ∈ n, isDayHeader l = false) :
    scanBlocks target (assemble bs ns) = scanBlocks target (assemble bs []) ∧
      dedupFirst (scanBlocks target (assemble bs ns)) =
        dedupFirst (scanBlocks target (assemble bs [])) := by
  have h1 := scanBlocks_assemble target bs ns hb hn
  have h2 := scanBlocks_assemble target bs [] hb (by simp)
  exact ⟨h1.trans h2.symm, by rw [h1, h2]⟩

/-- Witness for C3: one valid block with noise lines before and after. -/
theorem c3_witness :
    scanBlocks "山縣" (assemble [("1 2", "山縣 山縣", "09:00-10:00 11:00-12:00")]
        [["シフト表"], ["備考"]]) =
      scanBlocks "山縣"
        (assemble [("1 2", "山縣 山縣", "09:00-10:00 11:00-12:00")] []) :=
  (c3_noise_invariance "山縣" _ _ (by decide) (by decide)).1

/-- C4 counterexample: the parser accepts `"99:99-88:88"` — the
returned start string `"99:99"` is not a 24-hour `"HH:MM"` time of day
(hour 99, minute 99), refuting the range part of the claim. -/
theorem c4_counterexample :
    (1, "99:99", "88:88") ∈
      parse_shifts_from_text "1 2\n山縣 山縣\n99:99-88:88 07:00-08:00" "山縣" ∧
    hhmm24_spec "99:99" = false :=
  ⟨by decide, by decide⟩

/-- C4 (amended): every record returned by `parse_shifts_from_text`
has a day in [1,31], and start/end strings of the shape one-or-two-
digit hour, ASCII colon, two-digit minute (the shape matched by the
time-range pattern); the 24-hour value bounds claimed by the spec are
not enforced. -/
theorem c4_record_invariants (text target : String) (r : Nat × String × String)
    (h : r ∈ parse_shifts_from_text text target) :
    1 ≤ r.1 ∧ r.1 ≤ 31 ∧ hmShape r.2.1 = true ∧ hmShape r.2.2 = true := by
  unfold parse_shifts_from_text dedupFirst at h
  have hraw : r ∈ rawMatches text target := ((mem_dedupAux _ _).mp h).1
  unfold rawMatches at hraw
  rw [scanBlocks_eq_flatten] at hraw
  obtain ⟨l, hlmem, hrl⟩ := List.mem_flatten.mp hraw
  obtain ⟨bblk, hbmem, rfl⟩ := List.mem_map.mp hlmem
  have hh := recognizedBlocks_header _ bblk hbmem
  obtain ⟨⟨hd1, hd2⟩, hs1, hs2⟩ := blockRecords_day_time hh hrl
  exact ⟨hd1, hd2, hs1, hs2⟩

/-- Witness for C4: a concrete parsed record. -/
theorem c4_witness :
    1 ≤ (1 : Nat) ∧ (1 : Nat) ≤ 31 ∧
      hmShape "09:00" = true ∧ hmShape "17:00" = true :=
  c4_record_invariants "1 2\n山縣 田中\n09:00-17:00 08:00-16:00" "山縣"
    (1, "09:00", "17:00") (by decide)

/-- C5: the per-block column loop processes exactly the first `n`
columns, where `n` is the minimum of the three token counts — the
result is unchanged by truncating all three rows to the first `n`
entries (excess trailing tokens are ignored, no error) — and on the
spec's concrete example (header `"1 2 3"`, names `"田中 山縣"`, times
`"09:00-17:00 10:00-18:00 11:00-19:00"`, target `"山縣"`) the parser
returns exactly `[(2, "10:00", "18:00")]`. -/
theorem c5_min_columns (days : List Nat) (names times : List String)
    (target : String) :
    colRecords days names times target =
      colRecords (days.take (min days.length (min names.length times.length)))
        (names.take (min days.length (min names.length times.length)))
        (times.take (min days.length (min names.length times.length))) target ∧
    parse_shifts_from_text
        "1 2 3\n田中 山縣\n09:00-17:00 10:00-18:00 11:00-19:00" "山縣" =
      [(2, "10:00", "18:00")] := by
  constructor
  · unfold colRecords
    congr 1
    have hlen : (days.zip (names.zip times)).length =
        min days.length (min names.length times.length) := by
      simp [List.length_zip, inf_eq_min]
    conv_lhs => rw [← List.take_length (days.zip (names.zip times))]
    rw [hlen]
    simp only [List.zip_eq_zipWith, List.take_zipWith]
  · decide

/-- C6: a column whose name equals the target but whose time token
fails the time-range pattern contributes no record and no error, and
the remaining columns are still processed; on the spec's concrete
example (`"1 2"` / `"山縣 山縣"` / `"bad 09:00~17:00"`, target
`"山縣"`) the parser returns exactly `[(2, "09:00", "17:00")]`. -/
theorem c6_malformed_cell_skipped (target : String) (d : Nat) (nm tm : String)
    (days : List Nat) (names times : List String)
    (hnm : nm = target) (htm : matchTimeRange tm = none) :
    colRecords (d :: days) (nm :: names) (tm :: times) target =
      colRecords days names times target ∧
    parse_shifts_from_text "1 2\n山縣 山縣\nbad 09:00~17:00" "山縣" =
      [(2, "09:00", "17:00")] := by
  subst hnm
  constructor
  · simp [colRecords, List.zip_cons_cons, List.filterMap_cons, htm]
  · decide

/-- Witness for C6: the malformed cell `"bad"` in front of a valid
column. -/
theorem c6_witness :
    colRecords [1, 2] ["山縣", "山縣"] ["bad", "09:00~17:00"] "山縣" =
      colRecords [2] ["山縣"] ["09:00~17:00"] "山縣" :=
  (c6_malformed_cell_skipped "山縣" 1 "山縣" "bad" [2] ["山縣"] ["09:00~17:00"]
    rfl (by decide)).1

/-- C7: the parser's result contains no two equal (day,start,end)
triples; it keeps first occurrences (a sublist of the raw match
sequence with exactly the same members), its length is at most the raw
match count, with equality iff the raw matches are already
duplicate-free. -/
theorem c7_dedup (text target : String) :
    (parse_shifts_from_text text target).Nodup ∧
    List.Sublist (parse_shifts_from_text text target) (rawMatches text target) ∧
    (∀ x, x ∈ parse_shifts_from_text text target ↔ x ∈ rawMatches text target) ∧
    (parse_shifts_from_text text target).length ≤ (rawMatches text target).length ∧
    ((parse_shifts_from_text text target).length = (rawMatches text target).length ↔
      (rawMatches text target).Nodup) := by
  unfold parse_shifts_from_text dedupFirst
  refine ⟨nodup_dedupAux _ _, dedupAux_sublist _ _, ?_,
    (dedupAux_sublist _ _).length_le, ?_⟩
  · intro x
    rw [mem_dedupAux]
    simp
  · rw [dedupAux_length_eq]
    simp

/-- C9: if no names-row token of any recognized block equals the
target name, the parser returns the empty sequence (the embedding is a
total function: no exception exists on this path). -/
theorem c9_zero_match (text target : String)
    (h : ∀ b ∈ recognizedBlocks (parseLines text), target ∉ splitWs b.2.1) :
    parse_shifts_from_text text target = [] := by
  unfold parse_shifts_from_text rawMatches
  rw [scanBlocks_eq_flatten]
  rw [show ((recognizedBlocks (parseLines text)).map
      (fun b => blockRecords b.1 b.2.1 b.2.2 target)).flatten = [] from ?_]
  · rfl
  · rw [List.flatten_eq_nil_iff]
    intro l hl
    obtain ⟨bb, hb, rfl⟩ := List.mem_map.mp hl
    unfold blockRecords
    exact colRecords_eq_nil (h bb hb)

/-- Witness for C9: a well-formed block not containing the target. -/
theorem c9_witness :
    parse_shifts_from_text "1 2\n田中 佐藤\n09:00-10:00 10:00-11:00" "山縣" = [] :=
  c9_zero_match "1 2\n田中 佐藤\n09:00-10:00 10:00-11:00" "山縣" (by decide)

/-- C10: time cells are matched as an anchored prefix — appending
arbitrary trailing characters to a token that matches the time-range
pattern leaves the matched groups unchanged — and concretely the cell
`"09:00-17:00休"` still produces the record `(1, "09:00", "17:00")`. -/
theorem c10_prefix_match (s : String) (p : String × String) (e : List Char)
    (h : matchTimeRange s = some p) :
    matchTimeRange ⟨s.data ++ e⟩ = some p ∧
    parse_shifts_from_text "1 2\n山縣 田中\n09:00-17:00休 08:00-16:00" "山縣" =
      [(1, "09:00", "17:00")] :=
  ⟨matchTimeRange_append e h, by decide⟩

/-- Witness for C10: `"09:00-17:00"` extended by `"休"`. -/
theorem c10_witness :
    matchTimeRange ⟨"09:00-17:00".data ++ "休".data⟩ = some ("09:00", "17:00") :=
  (c10_prefix_match "09:00-17:00" ("09:00", "17:00") "休".data (by decide)).1

end ShiftToGcal
